import Mathlib

/-!
Shallow embedding of the department/employee hierarchy store of the
hitalent repository.

Sources embedded:
  * src/database/models.py               (table shapes)
  * src/database/repositories/departmanet_repo.py  (DepartmentRepo)
  * src/presentation/department.py       (HTTP handlers)
  * src/presentation/dto.py              (request validation)

Integer ids and timestamps are modelled as Nat; a store state is the pair
of the two tables as lists of rows.  SQL queries of the repository become
list operations: `select ... where ...` with `.first()` is `List.find?`,
a bulk `delete`/`update` with a `where` clause is `List.filter`/`List.map`,
and `session.delete(obj)` of a single fetched row is `List.eraseP`.
The BFS loop of `_collect_subtree_ids` has no termination guarantee in
Python, so its embedding takes explicit fuel and returns `none` when the
fuel is exhausted (the Python loop would not have terminated within that
many iterations); every terminating claim is proved under the forest
invariant, which supplies sufficient fuel.
-/

/-- A row of the departments table (models.py, class Department):
integer primary key `id`, non-null `name`, nullable self-referencing
`parent_id`, server-set `created_at` (TimeStampMixin). -/
structure Department where
  id : Nat
  name : String
  parent_id : Option Nat
  created_at : Nat
deriving DecidableEq, Repr

/-- A row of the employees table (models.py, class Employee). -/
structure Employee where
  id : Nat
  department_id : Nat
  full_name : String
  position : String
  hired_at : Option Nat
  created_at : Nat
deriving DecidableEq, Repr

/-- The database state seen by one session: the two tables. -/
structure Store where
  departments : List Department
  employees : List Employee
deriving DecidableEq, Repr

/-- The ids column of the departments table. -/
def deptIds (s : Store) : List Nat :=
  s.departments.map (fun d => d.id)

/-- DepartmentRepo.get: `select(DepartmentORM).where(id == id)` and
`.first()`. -/
def Store.getDept (s : Store) (id : Nat) : Option Department :=
  s.departments.find? (fun d => d.id = id)

/-- The query issued per BFS step in _collect_subtree_ids:
`select(DepartmentORM.id).where(DepartmentORM.parent_id == current_id)`. -/
def Store.childIds (s : Store) (current_id : Nat) : List Nat :=
  (s.departments.filter (fun d => d.parent_id = some current_id)).map (fun d => d.id)

/-- The employees of one department, as loaded by the
`DepartmentORM.employees` relationship (models.py back_populates). -/
def Store.empsOf (s : Store) (dept_id : Nat) : List Employee :=
  s.employees.filter (fun e => e.department_id = dept_id)

/-- The while-loop of DepartmentRepo._collect_subtree_ids: dequeue
`current_id` from the head of the queue, append it to `ids`, enqueue all
children.  `fuel` bounds the number of iterations; `none` means the
Python loop would still be running after that many iterations. -/
def collectSubtreeAux (s : Store) : Nat → List Nat → List Nat → Option (List Nat)
  | _, [], ids => some ids
  | 0, _ :: _, _ => none
  | fuel + 1, current :: rest, ids =>
      collectSubtreeAux s fuel (rest ++ s.childIds current) (ids ++ [current])

/-- DepartmentRepo._collect_subtree_ids: BFS over the subtree of
`root_id`, root first.  One unit of fuel per loop iteration; the number
of iterations of a terminating run is at most `departments.length + 1`
(each dequeued id is the root or a distinct department id), so this
fuel is sufficient whenever the Python loop terminates at all. -/
def Store.collect_subtree_ids (s : Store) (root_id : Nat) : Option (List Nat) :=
  collectSubtreeAux s (s.departments.length + 1) [root_id] []

/-- DepartmentRepo.is_descendant: membership of the candidate in the
collected subtree ids. -/
def Store.is_descendant (s : Store) (ancestor_id potential_descendant_id : Nat) : Option Bool :=
  (s.collect_subtree_ids ancestor_id).map (fun all_ids => potential_descendant_id ∈ all_ids)

/-- One deletion issued against the session during cascade_delete, in
program order: the single bulk employee delete, or one department row
delete. -/
inductive DeleteOp where
  | bulkEmployees (dept_ids : List Nat)
  | dept (dept_id : Nat)
deriving DecidableEq, Repr

/-- `session.delete(orm_dept)` after fetching the row with the given id
via `.scalar_one_or_none()`: removes the first (under the primary key,
the only) row with that id; a no-op when no row matches (the
`if orm_dept:` guard). -/
def eraseDept (l : List Department) (dept_id : Nat) : List Department :=
  l.eraseP (fun d => d.id = dept_id)

/-- DepartmentRepo.cascade_delete: collect the subtree ids, bulk-delete
every employee whose department_id is in that set, then delete the
department rows one by one in reversed BFS order.  The second component
records the deletions in the order the code issues them. -/
def Store.cascade_delete (s : Store) (id : Nat) : Option (Store × List DeleteOp) :=
  (s.collect_subtree_ids id).map (fun all_ids =>
    let employees2 := s.employees.filter (fun e => ¬ e.department_id ∈ all_ids)
    let departments2 := all_ids.reverse.foldl (fun acc dept_id => eraseDept acc dept_id) s.departments
    (⟨departments2, employees2⟩,
      DeleteOp.bulkEmployees all_ids :: all_ids.reverse.map DeleteOp.dept))

/-- Error kinds surfaced to the HTTP layer (HTTPException status codes:
404, 409, 400, 422 from DTO validation, 500). -/
inductive HError where
  | notFound
  | conflict
  | badRequest
  | validation
  | serverError
deriving DecidableEq, Repr

/-- DepartmentRepo.reassign_and_delete: fail (ValueError, surfaced as
NotFound) when the department is missing; otherwise move the direct
employees to `reassign_to_id`, re-parent the direct children to the
department's own parent, then delete the department row. -/
def Store.reassign_and_delete (s : Store) (id reassign_to_id : Nat) : Except HError Store :=
  match s.getDept id with
  | none => .error .notFound
  | some dept =>
    let employees2 := s.employees.map (fun e =>
      if e.department_id = id then { e with department_id := reassign_to_id } else e)
    let departments2 := s.departments.map (fun d =>
      if d.parent_id = some id then { d with parent_id := dept.parent_id } else d)
    .ok ⟨eraseDept departments2 id, employees2⟩

/-- domain/entities.py DepartmentDetails: a department with its sorted
employees and its bounded-depth children subtrees. -/
inductive DepartmentDetails where
  | mk (id : Nat) (name : String) (parent_id : Option Nat)
      (employees : List Employee) (children : List DepartmentDetails)
deriving Repr

def DepartmentDetails.id : DepartmentDetails → Nat
  | .mk i _ _ _ _ => i

def DepartmentDetails.name : DepartmentDetails → String
  | .mk _ n _ _ _ => n

def DepartmentDetails.parent_id : DepartmentDetails → Option Nat
  | .mk _ _ p _ _ => p

def DepartmentDetails.employees : DepartmentDetails → List Employee
  | .mk _ _ _ es _ => es

def DepartmentDetails.children : DepartmentDetails → List DepartmentDetails
  | .mk _ _ _ _ cs => cs

/-- `sorted(orm_dept.employees, key=lambda e: e.created_at)`: a stable
sort by ascending creation time. -/
def sortEmployees (l : List Employee) : List Employee :=
  l.mergeSort (fun a b => a.created_at ≤ b.created_at)

/-- DepartmentRepo._build_tree.  The Python recursion carries
`current_level` and `max_depth` and recurses only while
`current_level < max_depth`; here `remaining = max_depth - current_level`
counts the levels still allowed below this node, so `remaining = 0` is
exactly the `current_level < max_depth` guard failing. -/
def Store.build_tree (s : Store) (include_employees : Bool) : Nat → Department → DepartmentDetails
  | 0, d =>
      .mk d.id d.name d.parent_id
        (if include_employees then sortEmployees (s.empsOf d.id) else []) []
  | remaining + 1, d =>
      .mk d.id d.name d.parent_id
        (if include_employees then sortEmployees (s.empsOf d.id) else [])
        ((s.departments.filter (fun c => c.parent_id = some d.id)).map
          (fun c => s.build_tree include_employees remaining c))

/-- DepartmentRepo.get_with_details: clamp depth to [0, 5] via
`min(max(depth, 0), 5)`, fetch the root row, then build the bounded
tree. -/
def Store.get_with_details (s : Store) (id : Nat) (depth : Int) (include_employees : Bool) :
    Option DepartmentDetails :=
  let depth2 := min (max depth 0) 5
  (s.getDept id).map (fun d => s.build_tree include_employees depth2.toNat d)

/-- The rows returned by the query of name_exists_in_parent: same name
in the same sibling group; when `exclude_id` is given the statement
gains a `DepartmentORM.id != exclude_id` clause.  SQLAlchemy renders
`parent_id == None` as `IS NULL`, so the comparison is plain equality of
nullable values. -/
def siblingRows (s : Store) (name : String) (parent_id exclude_id : Option Nat) :
    List Department :=
  match exclude_id with
  | none => s.departments.filter (fun d => d.name = name ∧ d.parent_id = parent_id)
  | some ex =>
      s.departments.filter (fun d => d.name = name ∧ d.parent_id = parent_id ∧ ¬ d.id = ex)

/-- DepartmentRepo.name_exists_in_parent: `scalar_one_or_none() is not
None` over that query.  scalar_one_or_none returns the row for exactly
one match, None for no match, and raises MultipleResultsFound for two or
more — the table has no unique constraint on (name, parent_id), so two
same-named siblings are a reachable state and the raise escapes the
handlers unhandled (a 500, modelled as HError.serverError). -/
def Store.name_exists_in_parent (s : Store) (name : String) (parent_id exclude_id : Option Nat) :
    Except HError Bool :=
  match siblingRows s name parent_id exclude_id with
  | [] => .ok false
  | [_] => .ok true
  | _ :: _ :: _ => .error .serverError

/-- Python str.strip(): drop leading and trailing whitespace. -/
def strip (str : String) : String :=
  ⟨((str.data.dropWhile Char.isWhitespace).reverse.dropWhile Char.isWhitespace).reverse⟩

/-- dto.py DepartmentCreateRequest: `name` has min_length 1 and
max_length 200, then the strip_name validator trims it and rejects an
all-whitespace value. -/
def validDeptName (raw : String) : Except HError String :=
  if raw.length < 1 ∨ 200 < raw.length then .error .validation
  else if strip raw = "" then .error .validation
  else .ok (strip raw)

/-- The tail of create_department after the parent check: the
sibling-name collision check (409, or the MultipleResultsFound raise
propagating out of the handler), then `repo.save` of the new row. -/
def createInsert (s : Store) (name : String) (parent_id : Option Nat)
    (new_id now : Nat) : Except HError (Store × Department) :=
  match s.name_exists_in_parent name parent_id none with
  | .error e => .error e
  | .ok true => .error .conflict
  | .ok false =>
    let d : Department := { id := new_id, name := name, parent_id := parent_id, created_at := now }
    .ok ({ departments := s.departments ++ [d], employees := s.employees }, d)

/-- presentation/department.py create_department: validate the DTO,
require the parent to exist when given (404), reject a sibling-name
collision (409), then insert the new row.  `new_id` and `now` stand for
the database-assigned primary key and the server-set created_at. -/
def create_department (s : Store) (raw_name : String) (parent_id : Option Nat)
    (new_id now : Nat) : Except HError (Store × Department) :=
  match validDeptName raw_name with
  | .error e => .error e
  | .ok name =>
    match parent_id with
    | some pid =>
        if (s.getDept pid).isNone then .error .notFound
        else createInsert s name parent_id new_id now
    | none => createInsert s name parent_id new_id now

/-- dto.py DepartmentUpdateRequest as the handler sees it: an optional
already-validated name, and the parent_id field together with whether
the caller supplied it (`model_fields_set` distinguishes an omitted
parent_id from an explicit null). -/
structure DepartmentUpdateRequest where
  name : Option String
  parent_provided : Bool
  parent_id : Option Nat
deriving DecidableEq, Repr

/-- DepartmentRepo.update: fetch the row with the primary key
`upd.id` and overwrite its name and parent_id (id and created_at are
untouched); `none` when the row is missing. -/
def repo_update (s : Store) (upd : Department) : Option (Store × Department) :=
  match s.getDept upd.id with
  | none => none
  | some orm =>
    some (⟨s.departments.map (fun d =>
        if d.id = upd.id then { d with name := upd.name, parent_id := upd.parent_id } else d),
      s.employees⟩,
      { orm with name := upd.name, parent_id := upd.parent_id })

/-- The commit step of update_department: DepartmentRepo.update.  A
`none` result from the repo would crash the handler while building the
response (a 500). -/
def updateCommit (s : Store) (_id : Nat) (dept : Department) (new_name : String)
    (new_parent_id : Option Nat) : Option (Except HError (Store × Department)) :=
  match repo_update s { dept with name := new_name, parent_id := new_parent_id } with
  | none => some (.error .serverError)
  | some r => some (.ok r)

/-- The tail of presentation/department.py update_department after the
parent checks: the sibling-collision check, performed only when name or
parent actually changes (a MultipleResultsFound raise inside it escapes
the handler), then DepartmentRepo.update. -/
def updateFinish (s : Store) (id : Nat) (dept : Department) (new_name : String)
    (new_parent_id : Option Nat) : Option (Except HError (Store × Department)) :=
  if ¬ new_name = dept.name ∨ ¬ new_parent_id = dept.parent_id then
    match s.name_exists_in_parent new_name new_parent_id (some id) with
    | .error e => some (.error e)
    | .ok true => some (.error .conflict)
    | .ok false => updateCommit s id dept new_name new_parent_id
  else updateCommit s id dept new_name new_parent_id

/-- presentation/department.py update_department.  The outer `Option` is
the fuel artifact of `is_descendant`: `none` means the BFS inside the
cycle check would not have terminated. -/
def update_department (s : Store) (id : Nat) (req : DepartmentUpdateRequest) :
    Option (Except HError (Store × Department)) :=
  match s.getDept id with
  | none => some (.error .notFound)
  | some dept =>
    let new_name := req.name.getD dept.name
    let new_parent_id := if req.parent_provided then req.parent_id else dept.parent_id
    if new_parent_id = some id then some (.error .conflict)
    else
      match new_parent_id with
      | some pid =>
        match s.getDept pid with
        | none => some (.error .notFound)
        | some _ =>
          match s.is_descendant id pid with
          | none => none
          | some true => some (.error .conflict)
          | some false => updateFinish s id dept new_name new_parent_id
      | none => updateFinish s id dept new_name new_parent_id

/-- presentation/department.py delete_department: mode validation (400),
reassign-target validation (400/404), existence check on the department
(404), then the store operation.  The outer `Option` is again the BFS
fuel artifact. -/
def delete_department (s : Store) (id : Nat) (mode : String)
    (reassign_to_department_id : Option Nat) : Option (Except HError Store) :=
  if ¬ mode = "cascade" ∧ ¬ mode = "reassign" then some (.error .badRequest)
  else if mode = "reassign" ∧ reassign_to_department_id = none then some (.error .badRequest)
  else
    match s.getDept id with
    | none => some (.error .notFound)
    | some _ =>
      if mode = "cascade" then
        (s.cascade_delete id).map (fun r => .ok r.1)
      else
        match reassign_to_department_id with
        | none => some (.error .badRequest)
        | some target =>
          if target = id then some (.error .badRequest)
          else
            match s.getDept target with
            | none => some (.error .notFound)
            | some _ =>
              match s.reassign_and_delete id target with
              | .ok s2 => some (.ok s2)
              | .error e => some (.error e)

/-! ## Reachability, the forest invariant, and schema invariants -/

/-- `Reach s root x`: x is root or reachable from root by following
parent_id links downwards (x is in the subtree of root). -/
inductive Reach (s : Store) (root : Nat) : Nat → Prop where
  | refl : Reach s root root
  | step {p : Nat} {d : Department} (hp : Reach s root p) (hd : d ∈ s.departments)
      (hpar : d.parent_id = some p) : Reach s root d.id

/-- One department row respects a rank function: its parent has strictly
smaller rank. -/
def rankOk (rank : Nat → Nat) (d : Department) : Bool :=
  match d.parent_id with
  | some p => rank p < rank d.id
  | none => true

/-- The parent relation is an acyclic forest: primary keys are unique and
some rank function strictly increases along parent-to-child edges
(equivalent, for a finite table, to the absence of cycles). -/
def Forest (s : Store) : Prop :=
  (deptIds s).Nodup ∧ ∃ rank : Nat → Nat, ∀ d ∈ s.departments, rankOk rank d = true

/-- Primary-key uniqueness of the departments table alone. -/
def NodupIds (s : Store) : Prop :=
  (deptIds s).Nodup

/-- The employees.department_id foreign key: every employee names an
existing department. -/
def EmployeeFK (s : Store) : Prop :=
  ∀ e ∈ s.employees, e.department_id ∈ deptIds s

/-- One department row respects the departments.parent_id foreign key:
its parent, when non-null, names an existing department. -/
def parentOkB (s : Store) (d : Department) : Bool :=
  match d.parent_id with
  | some p => p ∈ deptIds s
  | none => true

/-- The departments.parent_id foreign key: every non-null parent names an
existing department. -/
def ParentFK (s : Store) : Prop :=
  ∀ d ∈ s.departments, parentOkB s d = true

theorem parentFK_mem {s : Store} (h : ParentFK s) {d : Department} (hd : d ∈ s.departments)
    {p : Nat} (hp : d.parent_id = some p) : p ∈ deptIds s := by
  have hb := h d hd
  unfold parentOkB at hb
  rw [hp] at hb
  simpa using hb

theorem rankOk_lt {rank : Nat → Nat} {d : Department} {p : Nat}
    (h : rankOk rank d = true) (hp : d.parent_id = some p) : rank p < rank d.id := by
  unfold rankOk at h
  rw [hp] at h
  simpa using h

theorem rank_of_reach {s : Store} {root x : Nat} {rank : Nat → Nat}
    (hr : ∀ d ∈ s.departments, rankOk rank d = true) (h : Reach s root x) :
    x = root ∨ rank root < rank x := by
  induction h with
  | refl => exact Or.inl rfl
  | step hp hd hpar ih =>
      have hlt := rankOk_lt (hr _ hd) hpar
      cases ih with
      | inl e => exact Or.inr (e ▸ hlt)
      | inr l => exact Or.inr (l.trans hlt)

theorem mem_childIds {s : Store} {c x : Nat} :
    x ∈ s.childIds c ↔ ∃ d, d ∈ s.departments ∧ d.id = x ∧ d.parent_id = some c := by
  simp only [Store.childIds, List.mem_map, List.mem_filter, decide_eq_true_eq]
  constructor
  · rintro ⟨d, ⟨hd, hpar⟩, hid⟩
    exact ⟨d, hd, hid, hpar⟩
  · rintro ⟨d, hd, hid, hpar⟩
    exact ⟨d, ⟨hd, hpar⟩, hid⟩

theorem childIds_nodup {s : Store} (hn : NodupIds s) (c : Nat) : (s.childIds c).Nodup :=
  List.Nodup.sublist ((List.filter_sublist _).map _) hn

theorem dept_eq_of_id_eq {s : Store} (hn : NodupIds s) {d d2 : Department}
    (h1 : d ∈ s.departments) (h2 : d2 ∈ s.departments) (h : d.id = d2.id) : d = d2 :=
  List.inj_on_of_nodup_map hn h1 h2 h

theorem mem_deptIds {s : Store} {x : Nat} :
    x ∈ deptIds s ↔ ∃ d, d ∈ s.departments ∧ d.id = x := by
  simp [deptIds, List.mem_map]

theorem nodup_length_le {l l2 : List Nat} (h : l.Nodup) (hs : ∀ x ∈ l, x ∈ l2) :
    l.length ≤ l2.length := by
  calc l.length = l.toFinset.card := (List.toFinset_card_of_nodup h).symm
    _ ≤ l2.toFinset.card := Finset.card_le_card (fun x hx => by
        simp only [List.mem_toFinset] at hx ⊢
        exact hs x hx)
    _ ≤ l2.length := List.toFinset_card_le l2

/-! ## The BFS loop invariant and the master lemma -/

/-- Loop invariant of the BFS in _collect_subtree_ids, relating the
pending `queue` and the already-emitted `ids`. -/
structure BfsInv (s : Store) (root : Nat) (queue ids : List Nat) : Prop where
  nodup : (ids ++ queue).Nodup
  reach : ∀ x ∈ ids ++ queue, Reach s root x
  originate : ∀ x ∈ ids ++ queue, x = root ∨
    ∃ d, d ∈ s.departments ∧ d.id = x ∧ ∃ p, d.parent_id = some p ∧ p ∈ ids
  rootSeen : root ∈ ids ++ queue
  closure : ∀ d ∈ s.departments, ∀ p, d.parent_id = some p → p ∈ ids → d.id ∈ ids ++ queue

theorem collectSubtreeAux_nil (s : Store) (fuel : Nat) (ids : List Nat) :
    collectSubtreeAux s fuel [] ids = some ids := by
  cases fuel <;> rfl

theorem collectSubtreeAux_cons (s : Store) (f current : Nat) (rest ids : List Nat) :
    collectSubtreeAux s (f + 1) (current :: rest) ids =
      collectSubtreeAux s f (rest ++ s.childIds current) (ids ++ [current]) := rfl

/-- A child id produced while dequeuing `current` was never seen before:
its (unique) row's parent is `current`, which is not yet emitted, and it
cannot be the root since ranks increase away from the root. -/
theorem fresh_child {s : Store} {root current : Nat} {rest ids : List Nat}
    (hf : Forest s) (inv : BfsInv s root (current :: rest) ids) {c : Nat}
    (hc : c ∈ s.childIds current) : ¬ c ∈ ids ++ current :: rest := by
  obtain ⟨hn, rank, hrank⟩ := hf
  obtain ⟨d, hd, hid, hpar⟩ := mem_childIds.mp hc
  intro hmem
  rcases inv.originate c hmem with hroot | ⟨d2, hd2, hid2, p2, hpar2, hp2⟩
  · -- c would be the root, giving a rank cycle through current
    have hcur : Reach s root current := inv.reach current (by simp)
    have hlt : rank current < rank root := by
      have := rankOk_lt (hrank d hd) hpar
      rw [hid, hroot] at this
      exact this
    rcases rank_of_reach hrank hcur with e | l
    · rw [e] at hlt
      exact absurd hlt (lt_irrefl _)
    · exact absurd (l.trans hlt) (lt_irrefl _)
  · -- c's unique row already has its parent in ids, but that parent is current
    have hdd : d2 = d := dept_eq_of_id_eq hn hd2 hd (by rw [hid2, hid])
    have hpc : p2 = current := by
      rw [hdd] at hpar2
      rw [hpar2] at hpar
      exact Option.some_inj.mp hpar
    have hdisj := (List.nodup_append.mp inv.nodup).2.2
    exact hdisj (hpc ▸ hp2) (List.mem_cons_self _ _)

/-- The final list when the queue has emptied. -/
theorem bfs_base {s : Store} {root : Nat} {ids : List Nat} (fuel : Nat)
    (inv : BfsInv s root [] ids) :
    ∃ out, collectSubtreeAux s fuel [] ids = some out ∧
      (∃ tail, out = ids ++ tail) ∧
      out.Nodup ∧
      (∀ x ∈ ids ++ ([] : List Nat), x ∈ out) ∧
      (∀ x ∈ out, Reach s root x) ∧
      (∀ x ∈ out, x = root ∨ x ∈ deptIds s) ∧
      (∀ d ∈ s.departments, ∀ p, d.parent_id = some p → p ∈ out → d.id ∈ out) := by
  refine ⟨ids, collectSubtreeAux_nil s fuel ids, ⟨[], by simp⟩, ?_, ?_, ?_, ?_, ?_⟩
  · simpa using inv.nodup
  · intro x hx
    simpa using hx
  · intro x hx
    exact inv.reach x (by simpa using hx)
  · intro x hx
    rcases inv.originate x (by simpa using hx) with h | ⟨d, hd, hid, _⟩
    · exact Or.inl h
    · exact Or.inr (mem_deptIds.mpr ⟨d, hd, hid⟩)
  · intro d hd p hpar hp
    have := inv.closure d hd p hpar hp
    simpa using this

/-- Preservation of the invariant across one dequeue step. -/
theorem bfs_step_inv {s : Store} {root current : Nat} {rest ids : List Nat}
    (hf : Forest s) (inv : BfsInv s root (current :: rest) ids) :
    BfsInv s root (rest ++ s.childIds current) (ids ++ [current]) := by
  have hn : NodupIds s := hf.1
  have hre : (ids ++ [current]) ++ (rest ++ s.childIds current) =
      (ids ++ current :: rest) ++ s.childIds current := by simp
  refine ⟨?_, ?_, ?_, ?_, ?_⟩
  · rw [hre]
    exact List.nodup_append.mpr ⟨inv.nodup, childIds_nodup hn current,
      fun a ha hc => fresh_child hf inv hc ha⟩
  · intro x hx
    rw [hre] at hx
    rcases List.mem_append.mp hx with hold | hchild
    · exact inv.reach x hold
    · obtain ⟨d, hd, hid, hpar⟩ := mem_childIds.mp hchild
      have hcur : Reach s root current := inv.reach current (by simp)
      exact hid ▸ Reach.step hcur hd hpar
  · intro x hx
    rw [hre] at hx
    rcases List.mem_append.mp hx with hold | hchild
    · rcases inv.originate x hold with h | ⟨d, hd, hid, p, hpar, hp⟩
      · exact Or.inl h
      · exact Or.inr ⟨d, hd, hid, p, hpar, List.mem_append_left _ hp⟩
    · obtain ⟨d, hd, hid, hpar⟩ := mem_childIds.mp hchild
      exact Or.inr ⟨d, hd, hid, current, hpar, by simp⟩
  · have h := inv.rootSeen
    simp only [List.mem_append, List.mem_cons] at h ⊢
    tauto
  · intro d hd p hpar hp
    rw [hre]
    rcases List.mem_append.mp hp with hpids | hpcur
    · have := inv.closure d hd p hpar hpids
      exact List.mem_append_left _ this
    · have hpc : p = current := by simpa using hpcur
      subst hpc
      exact List.mem_append_right _ (mem_childIds.mpr ⟨d, hd, rfl, hpar⟩)

/-- Master lemma about any intermediate BFS state: given the invariant
and enough fuel, the loop terminates, extends the emitted prefix, emits
no duplicates, emits only subtree members, and emits a
parent-to-child-closed set. -/
theorem bfs_master {s : Store} {root : Nat} (hf : Forest s) :
    ∀ (fuel : Nat) (queue ids : List Nat), BfsInv s root queue ids →
      s.departments.length + 1 ≤ ids.length + fuel →
      ∃ out, collectSubtreeAux s fuel queue ids = some out ∧
        (∃ tail, out = ids ++ tail) ∧
        out.Nodup ∧
        (∀ x ∈ ids ++ queue, x ∈ out) ∧
        (∀ x ∈ out, Reach s root x) ∧
        (∀ x ∈ out, x = root ∨ x ∈ deptIds s) ∧
        (∀ d ∈ s.departments, ∀ p, d.parent_id = some p → p ∈ out → d.id ∈ out) := by
  intro fuel
  induction fuel with
  | zero =>
      intro queue ids inv hcount
      cases queue with
      | nil => exact bfs_base 0 inv
      | cons current rest =>
          exfalso
          have hlen : (ids ++ current :: rest).length ≤ (root :: deptIds s).length := by
            refine nodup_length_le inv.nodup ?_
            intro x hx
            rcases inv.originate x hx with h | ⟨d, hd, hid, _⟩
            · exact h ▸ List.mem_cons_self _ _
            · exact List.mem_cons_of_mem _ (mem_deptIds.mpr ⟨d, hd, hid⟩)
          simp only [List.length_append, List.length_cons, deptIds, List.length_map] at hlen
          omega
  | succ f ih =>
      intro queue ids inv hcount
      cases queue with
      | nil => exact bfs_base (f + 1) inv
      | cons current rest =>
          have inv2 := bfs_step_inv hf inv
          have hcount2 : s.departments.length + 1 ≤ (ids ++ [current]).length + f := by
            simp only [List.length_append, List.length_cons, List.length_nil]
            omega
          obtain ⟨out, hout, ⟨tail, htail⟩, hnd, hmem, hreach, horig, hclos⟩ :=
            ih (rest ++ s.childIds current) (ids ++ [current]) inv2 hcount2
          refine ⟨out, ?_, ⟨current :: tail, ?_⟩, hnd, ?_, hreach, horig, hclos⟩
          · rw [collectSubtreeAux_cons]
            exact hout
          · rw [htail]
            simp
          · intro x hx
            rcases List.mem_append.mp hx with hxids | hxq
            · exact hmem x (List.mem_append_left _ (List.mem_append_left _ hxids))
            · rcases List.mem_cons.mp hxq with hxc | hxr
              · exact hmem x (List.mem_append_left _ (by simp [hxc]))
              · exact hmem x (List.mem_append_right _ (List.mem_append_left _ hxr))

/-- Main characterisation of _collect_subtree_ids under the forest
invariant: it terminates within the provided fuel, returns the root
first, has no duplicates, and contains exactly the subtree of the
root. -/
theorem collect_main {s : Store} {root : Nat} (hf : Forest s) :
    ∃ out tail, s.collect_subtree_ids root = some out ∧ out = root :: tail ∧
      out.Nodup ∧
      (∀ x, x ∈ out ↔ Reach s root x) ∧
      (∀ x ∈ out, x = root ∨ x ∈ deptIds s) := by
  have hn : NodupIds s := hf.1
  have hrootfresh : ¬ root ∈ s.childIds root := by
    intro hc
    obtain ⟨d, hd, hid, hpar⟩ := mem_childIds.mp hc
    obtain ⟨rank, hrank⟩ := hf.2
    have := rankOk_lt (hrank d hd) hpar
    rw [hid] at this
    exact absurd this (lt_irrefl _)
  have inv1 : BfsInv s root (s.childIds root) [root] := by
    refine ⟨?_, ?_, ?_, ?_, ?_⟩
    · exact List.nodup_cons.mpr ⟨hrootfresh, childIds_nodup hn root⟩
    · intro x hx
      rcases List.mem_cons.mp hx with h | hchild
      · exact h ▸ Reach.refl
      · obtain ⟨d, hd, hid, hpar⟩ := mem_childIds.mp hchild
        exact hid ▸ Reach.step Reach.refl hd hpar
    · intro x hx
      rcases List.mem_cons.mp hx with h | hchild
      · exact Or.inl h
      · obtain ⟨d, hd, hid, hpar⟩ := mem_childIds.mp hchild
        exact Or.inr ⟨d, hd, hid, root, hpar, by simp⟩
    · exact List.mem_cons_self _ _
    · intro d hd p hpar hp
      have hpr : p = root := by simpa using hp
      subst hpr
      exact List.mem_cons_of_mem _ (mem_childIds.mpr ⟨d, hd, rfl, hpar⟩)
  have hcount : s.departments.length + 1 ≤ ([root] : List Nat).length + s.departments.length := by
    simp only [List.length_cons, List.length_nil]
    omega
  obtain ⟨out, hout, ⟨tail, htail⟩, hnd, hmem, hreach, horig, hclos⟩ :=
    bfs_master hf s.departments.length (s.childIds root) [root] inv1 hcount
  refine ⟨out, tail, ?_, ?_, hnd, ?_, horig⟩
  · show collectSubtreeAux s (s.departments.length + 1) [root] [] = some out
    rw [collectSubtreeAux_cons]
    simpa using hout
  · simpa using htail
  · intro x
    constructor
    · exact hreach x
    · intro h
      induction h with
      | refl => exact hmem root (by simp)
      | step hp hd hpar ihm => exact hclos _ hd _ hpar ihm

/-! ## Lookup and row-deletion lemmas -/

theorem getDept_eq_none {s : Store} {x : Nat} :
    s.getDept x = none ↔ ¬ x ∈ deptIds s := by
  constructor
  · intro h hx
    obtain ⟨d, hd, hid⟩ := mem_deptIds.mp hx
    have := List.find?_eq_none.mp h d hd
    simp [hid] at this
  · intro h
    apply List.find?_eq_none.mpr
    intro d hd
    simp only [decide_eq_true_eq]
    intro hid
    exact h (mem_deptIds.mpr ⟨d, hd, hid⟩)

theorem getDept_some {s : Store} {x : Nat} {d : Department}
    (h : s.getDept x = some d) : d ∈ s.departments ∧ d.id = x := by
  refine ⟨List.mem_of_find?_eq_some h, ?_⟩
  have := List.find?_some h
  simpa using this

theorem getDept_exists {s : Store} {x : Nat} (h : x ∈ deptIds s) :
    ∃ d, s.getDept x = some d ∧ d ∈ s.departments ∧ d.id = x := by
  cases hh : s.getDept x with
  | none => exact absurd h (getDept_eq_none.mp hh)
  | some d => exact ⟨d, rfl, getDept_some hh⟩

/-- With unique primary keys, deleting the one fetched row with a given
id is the same as filtering that id out. -/
theorem eraseDept_eq_filter {l : List Department}
    (hn : (l.map (fun d => d.id)).Nodup) (a : Nat) :
    eraseDept l a = l.filter (fun d => ¬ d.id = a) := by
  induction l with
  | nil => rfl
  | cons d tl ih =>
      simp only [List.map_cons, List.nodup_cons] at hn
      by_cases hda : d.id = a
      · simp [eraseDept, List.eraseP_cons, List.filter_cons, hda]
        refine (List.filter_eq_self.mpr ?_).symm
        intro x hx
        simp only [Bool.not_eq_true', decide_eq_false_iff_not]
        intro hxa
        exact hn.1 (List.mem_map.mpr ⟨x, hx, by rw [hxa, hda]⟩)
      · simp [eraseDept, List.eraseP_cons, List.filter_cons, hda]
        simpa [eraseDept, decide_not] using ih hn.2

/-- Folding the one-row deletions of cascade_delete over the collected id
list removes exactly the rows whose id is in that list. -/
theorem foldl_eraseDept (L : List Nat) :
    ∀ (l : List Department), (l.map (fun d => d.id)).Nodup →
      L.foldl (fun acc dept_id => eraseDept acc dept_id) l
        = l.filter (fun d => ¬ d.id ∈ L) := by
  induction L with
  | nil =>
      intro l _
      simp
  | cons a L ih =>
      intro l hn
      rw [List.foldl_cons, eraseDept_eq_filter hn a]
      have hn2 : ((l.filter (fun d => ¬ d.id = a)).map (fun d => d.id)).Nodup :=
        List.Nodup.sublist ((List.filter_sublist _).map _) hn
      rw [ih _ hn2, List.filter_filter]
      apply List.filter_congr
      intro x _
      by_cases h1 : x.id = a <;> by_cases h2 : x.id ∈ L <;> simp [h1, h2]

/-! ## Example store used to witness the hypotheses of the claims:
A(1) is a root with children B(2) and C(3); D(4) is a child of B;
B has two employees and D one. -/

def exampleStore : Store :=
  ⟨[⟨1, "A", none, 0⟩, ⟨2, "B", some 1, 1⟩, ⟨3, "C", some 1, 2⟩, ⟨4, "D", some 2, 3⟩],
   [⟨1, 2, "E1", "dev", none, 7⟩, ⟨2, 2, "E2", "dev", none, 5⟩, ⟨3, 4, "E3", "qa", none, 6⟩]⟩

/-! ## Claim theorems -/

/-- C3: for a store whose parent relation is an acyclic forest,
collect_subtree_ids returns the subtree of the root in BFS order: the
root is the first element, there are no duplicates, and an id appears
iff it is the root or reachable from it along parent_id links; and
is_descendant answers membership in exactly that list. -/
theorem collect_subtree_ids_bfs_spec (s : Store) (root : Nat) (hf : Forest s) :
    ∃ out, s.collect_subtree_ids root = some out ∧
      (∃ tail, out = root :: tail) ∧
      out.Nodup ∧
      (∀ x, x ∈ out ↔ Reach s root x) ∧
      (∀ cand, (s.is_descendant root cand = some true ↔ cand ∈ out)) := by
  obtain ⟨out, tail, hout, hhead, hnd, hiff, _⟩ := collect_main hf
  refine ⟨out, hout, ⟨tail, hhead⟩, hnd, hiff, ?_⟩
  intro cand
  simp [Store.is_descendant, hout]

theorem collect_subtree_ids_bfs_spec_witness :
    ∃ out, exampleStore.collect_subtree_ids 1 = some out ∧
      (∃ tail, out = 1 :: tail) ∧
      out.Nodup ∧
      (∀ x, x ∈ out ↔ Reach exampleStore 1 x) ∧
      (∀ cand, (exampleStore.is_descendant 1 cand = some true ↔ cand ∈ out)) :=
  collect_subtree_ids_bfs_spec exampleStore 1 ⟨by decide, fun n => n, by decide⟩

/-- C8: under the forest invariant the BFS work queue empties after
finitely many steps: collect_subtree_ids terminates with a result, and
hence so do is_descendant and cascade_delete. -/
theorem collect_subtree_ids_terminates_spec (s : Store) (root : Nat) (hf : Forest s) :
    (∃ out, s.collect_subtree_ids root = some out) ∧
    (∀ cand, ∃ b, s.is_descendant root cand = some b) ∧
    (∃ r, s.cascade_delete root = some r) := by
  obtain ⟨out, tail, hout, _⟩ := collect_main hf
  refine ⟨⟨out, hout⟩, ?_, ?_⟩
  · intro cand
    refine ⟨decide (cand ∈ out), ?_⟩
    rw [Store.is_descendant, hout, Option.map_some']
  · exact ⟨_, by rw [Store.cascade_delete, hout]; rfl⟩

theorem collect_subtree_ids_terminates_spec_witness :
    (∃ out, exampleStore.collect_subtree_ids 1 = some out) ∧
    (∀ cand, ∃ b, exampleStore.is_descendant 1 cand = some b) ∧
    (∃ r, exampleStore.cascade_delete 1 = some r) :=
  collect_subtree_ids_terminates_spec exampleStore 1 ⟨by decide, fun n => n, by decide⟩

/-- C1: cascade_delete on an existing root of a forest-shaped store
removes every department of the collected subtree and every employee
whose department lay in it; the employees are removed by the single
bulk operation issued first, and the department rows are deleted in
reverse BFS order (root last), as the recorded deletion trace shows. -/
theorem cascade_delete_removes_subtree (s : Store) (root : Nat) (hf : Forest s)
    (_hroot : root ∈ deptIds s) :
    ∃ all_ids s2 trace,
      s.collect_subtree_ids root = some all_ids ∧
      s.cascade_delete root = some (s2, trace) ∧
      (∀ d ∈ s2.departments, ¬ d.id ∈ all_ids) ∧
      (∀ e ∈ s2.employees, ¬ e.department_id ∈ all_ids) ∧
      trace = DeleteOp.bulkEmployees all_ids :: all_ids.reverse.map DeleteOp.dept := by
  obtain ⟨out, tail, hout, hhead, hnd, hiff, _⟩ := collect_main hf
  have hdep : out.reverse.foldl (fun acc dept_id => eraseDept acc dept_id) s.departments
      = s.departments.filter (fun d => ¬ d.id ∈ out.reverse) := foldl_eraseDept _ _ hf.1
  refine ⟨out,
    ⟨s.departments.filter (fun d => ¬ d.id ∈ out.reverse),
     s.employees.filter (fun e => ¬ e.department_id ∈ out)⟩,
    DeleteOp.bulkEmployees out :: out.reverse.map DeleteOp.dept,
    hout, ?_, ?_, ?_, rfl⟩
  · simp only [Store.cascade_delete, hout, Option.map_some']
    rw [hdep]
  · intro d hd
    have := List.of_mem_filter hd
    simpa using this
  · intro e he
    have := List.of_mem_filter he
    simpa using this

theorem cascade_delete_removes_subtree_witness :
    ∃ all_ids s2 trace,
      exampleStore.collect_subtree_ids 2 = some all_ids ∧
      exampleStore.cascade_delete 2 = some (s2, trace) ∧
      (∀ d ∈ s2.departments, ¬ d.id ∈ all_ids) ∧
      (∀ e ∈ s2.employees, ¬ e.department_id ∈ all_ids) ∧
      trace = DeleteOp.bulkEmployees all_ids :: all_ids.reverse.map DeleteOp.dept :=
  cascade_delete_removes_subtree exampleStore 2 ⟨by decide, fun n => n, by decide⟩ (by decide)

/-- C10: at the store level cascade_delete of an id that names no
department completes without any not-found failure and leaves both
tables unchanged (given the schema foreign keys: employees point at
existing departments and parents point at existing departments, both
declared in models.py and enforced by PostgreSQL); the missing-id check
producing 404 lives only in the HTTP handler delete_department. -/
theorem cascade_delete_missing_root_spec (s : Store) (id : Nat) (hefk : EmployeeFK s)
    (hpfk : ParentFK s) (hmiss : ¬ id ∈ deptIds s) :
    s.cascade_delete id = some (s, [DeleteOp.bulkEmployees [id], DeleteOp.dept id]) ∧
    delete_department s id "cascade" none = some (.error .notFound) := by
  have hchild : s.childIds id = [] := by
    apply List.eq_nil_iff_forall_not_mem.mpr
    intro x hx
    obtain ⟨d, hd, _, hpar⟩ := mem_childIds.mp hx
    exact hmiss (parentFK_mem hpfk hd hpar)
  have hcollect : s.collect_subtree_ids id = some [id] := by
    show collectSubtreeAux s (s.departments.length + 1) [id] [] = some [id]
    rw [collectSubtreeAux_cons]
    simp [hchild, collectSubtreeAux_nil]
  have hemp : s.employees.filter (fun e => ¬ e.department_id ∈ ([id] : List Nat))
      = s.employees := by
    apply List.filter_eq_self.mpr
    intro e he
    simp only [List.mem_cons, List.not_mem_nil, or_false, decide_eq_true_eq]
    intro h
    exact hmiss (h ▸ hefk e he)
  have hdept : eraseDept s.departments id = s.departments := by
    apply List.eraseP_of_forall_not
    intro d hd
    simp only [decide_eq_true_eq]
    intro hid
    exact hmiss (mem_deptIds.mpr ⟨d, hd, hid⟩)
  constructor
  · simp only [Store.cascade_delete, hcollect, Option.map_some', List.reverse_cons,
      List.reverse_nil, List.nil_append, List.foldl_cons, List.foldl_nil, List.map_cons,
      List.map_nil]
    rw [hemp, hdept]
  · simp [delete_department, getDept_eq_none.mpr hmiss]

theorem cascade_delete_missing_root_spec_witness :
    exampleStore.cascade_delete 9
        = some (exampleStore, [DeleteOp.bulkEmployees [9], DeleteOp.dept 9]) ∧
    delete_department exampleStore 9 "cascade" none = some (.error .notFound) :=
  cascade_delete_missing_root_spec exampleStore 9 (by unfold EmployeeFK; decide)
    (by unfold ParentFK; decide) (by decide)

/-- C2: reassign_and_delete on an existing root moves exactly the direct
employees of the root to the target, re-parents exactly the direct child
departments to the root's own former parent, deletes the root row and
nothing else, and fails with NotFound (leaving no new state) when the
root does not exist. -/
theorem reassign_and_delete_spec (s : Store) (root target : Nat) (hn : NodupIds s) :
    (∀ dept, s.getDept root = some dept →
      ∃ s2, s.reassign_and_delete root target = .ok s2 ∧
        ¬ root ∈ deptIds s2 ∧
        (∀ e ∈ s.employees, e.department_id = root →
            { e with department_id := target } ∈ s2.employees) ∧
        (∀ e ∈ s.employees, ¬ e.department_id = root → e ∈ s2.employees) ∧
        (∀ e2 ∈ s2.employees, ∃ e, e ∈ s.employees ∧
            ((e.department_id = root ∧ e2 = { e with department_id := target }) ∨
             (¬ e.department_id = root ∧ e2 = e))) ∧
        (∀ d ∈ s.departments, ¬ d.id = root → d.parent_id = some root →
            { d with parent_id := dept.parent_id } ∈ s2.departments) ∧
        (∀ d ∈ s.departments, ¬ d.id = root → ¬ d.parent_id = some root →
            d ∈ s2.departments) ∧
        (∀ d2 ∈ s2.departments, ∃ d, d ∈ s.departments ∧ ¬ d.id = root ∧
            ((d.parent_id = some root ∧ d2 = { d with parent_id := dept.parent_id }) ∨
             (¬ d.parent_id = some root ∧ d2 = d)))) ∧
    (s.getDept root = none → s.reassign_and_delete root target = .error .notFound) := by
  constructor
  · intro dept hd
    have hids : ((s.departments.map (fun d =>
        if d.parent_id = some root then { d with parent_id := dept.parent_id } else d)).map
          (fun d => d.id)) = s.departments.map (fun d => d.id) := by
      rw [List.map_map]
      apply List.map_congr_left
      intro d _
      by_cases h : d.parent_id = some root <;> simp [h]
    have hnd2 : ((s.departments.map (fun d =>
        if d.parent_id = some root then { d with parent_id := dept.parent_id } else d)).map
          (fun d => d.id)).Nodup := by
      rw [hids]
      exact hn
    refine ⟨⟨(s.departments.map (fun d =>
        if d.parent_id = some root then { d with parent_id := dept.parent_id } else d)).filter
          (fun d => ¬ d.id = root),
      s.employees.map (fun e =>
        if e.department_id = root then { e with department_id := target } else e)⟩,
      ?_, ?_, ?_, ?_, ?_, ?_, ?_, ?_⟩
    · simp only [Store.reassign_and_delete, hd]
      rw [eraseDept_eq_filter hnd2 root]
    · intro hmem
      obtain ⟨d2, hd2, hid⟩ := mem_deptIds.mp hmem
      have := List.of_mem_filter hd2
      simp only [decide_eq_true_eq] at this
      exact this hid
    · intro e he hroot
      exact List.mem_map.mpr ⟨e, he, by simp [hroot]⟩
    · intro e he hroot
      exact List.mem_map.mpr ⟨e, he, by simp [hroot]⟩
    · intro e2 he2
      obtain ⟨e, he, hfe⟩ := List.mem_map.mp he2
      by_cases h : e.department_id = root
      · refine ⟨e, he, Or.inl ⟨h, ?_⟩⟩
        rw [← hfe]
        simp [h]
      · refine ⟨e, he, Or.inr ⟨h, ?_⟩⟩
        rw [← hfe]
        simp [h]
    · intro d hdm hidne hpar
      refine List.mem_filter.mpr ⟨List.mem_map.mpr ⟨d, hdm, by simp [hpar]⟩, ?_⟩
      simpa using hidne
    · intro d hdm hidne hpar
      refine List.mem_filter.mpr ⟨List.mem_map.mpr ⟨d, hdm, by simp [hpar]⟩, ?_⟩
      simpa using hidne
    · intro d2 hd2
      have hmm := List.mem_filter.mp hd2
      obtain ⟨d, hdm, hfd⟩ := List.mem_map.mp hmm.1
      have hidne : ¬ d2.id = root := by simpa using hmm.2
      have hdid : d2.id = d.id := by
        rw [← hfd]
        by_cases h : d.parent_id = some root <;> simp [h]
      by_cases h : d.parent_id = some root
      · refine ⟨d, hdm, by rw [← hdid]; exact hidne, Or.inl ⟨h, ?_⟩⟩
        rw [← hfd]
        simp [h]
      · refine ⟨d, hdm, by rw [← hdid]; exact hidne, Or.inr ⟨h, ?_⟩⟩
        rw [← hfd]
        simp [h]
  · intro h
    simp [Store.reassign_and_delete, h]

theorem reassign_and_delete_spec_witness :
    ∃ s2, exampleStore.reassign_and_delete 2 1 = .ok s2 ∧
      ¬ 2 ∈ deptIds s2 ∧
      (∀ e ∈ exampleStore.employees, e.department_id = 2 →
          { e with department_id := 1 } ∈ s2.employees) ∧
      (∀ e ∈ exampleStore.employees, ¬ e.department_id = 2 → e ∈ s2.employees) ∧
      (∀ e2 ∈ s2.employees, ∃ e, e ∈ exampleStore.employees ∧
          ((e.department_id = 2 ∧ e2 = { e with department_id := 1 }) ∨
           (¬ e.department_id = 2 ∧ e2 = e))) ∧
      (∀ d ∈ exampleStore.departments, ¬ d.id = 2 → d.parent_id = some 2 →
          { d with parent_id := some 1 } ∈ s2.departments) ∧
      (∀ d ∈ exampleStore.departments, ¬ d.id = 2 → ¬ d.parent_id = some 2 →
          d ∈ s2.departments) ∧
      (∀ d2 ∈ s2.departments, ∃ d, d ∈ exampleStore.departments ∧ ¬ d.id = 2 ∧
          ((d.parent_id = some 2 ∧ d2 = { d with parent_id := some 1 }) ∨
           (¬ d.parent_id = some 2 ∧ d2 = d))) :=
  (reassign_and_delete_spec exampleStore 2 1 (by unfold NodupIds; decide)).1
    ⟨2, "B", some 1, 1⟩ rfl

/-! ## Levels of a details tree -/

/-- The nodes at a given level of a DepartmentDetails tree: level 0 is
the node itself, level n+1 collects the children's level-n nodes.  Every
node of the tree appears at the level equal to its depth. -/
def nodesAtLevel : Nat → DepartmentDetails → List DepartmentDetails
  | 0, t => [t]
  | n + 1, t => t.children.flatMap (fun c => nodesAtLevel n c)

/-- A node `remaining` levels below the start of a build has no
children: the recursion guard `current_level < max_depth` fails exactly
there. -/
theorem build_tree_children_at_boundary (s : Store) (inc : Bool) :
    ∀ (f : Nat) (d : Department) (n : DepartmentDetails),
      n ∈ nodesAtLevel f (s.build_tree inc f d) → n.children = [] := by
  intro f
  induction f with
  | zero =>
      intro d n hn
      simp only [nodesAtLevel, List.mem_singleton] at hn
      subst hn
      simp [Store.build_tree, DepartmentDetails.children]
  | succ f ih =>
      intro d n hn
      simp only [nodesAtLevel, Store.build_tree, DepartmentDetails.children,
        List.mem_flatMap] at hn
      obtain ⟨c, hc, hnc⟩ := hn
      obtain ⟨row, _, hcrow⟩ := List.mem_map.mp hc
      exact ih row n (hcrow ▸ hnc)

/-- Every node produced by _build_tree with include_employees carries
exactly the stable created_at-sort of its own department's employees. -/
theorem build_tree_employees_eq (s : Store) :
    ∀ (f : Nat) (d : Department) (lvl : Nat) (n : DepartmentDetails),
      n ∈ nodesAtLevel lvl (s.build_tree true f d) →
      n.employees = sortEmployees (s.empsOf n.id) := by
  intro f
  induction f with
  | zero =>
      intro d lvl n hn
      cases lvl with
      | zero =>
          simp only [nodesAtLevel, List.mem_singleton] at hn
          subst hn
          simp [Store.build_tree, DepartmentDetails.employees, DepartmentDetails.id]
      | succ l =>
          simp [nodesAtLevel, Store.build_tree, DepartmentDetails.children] at hn
  | succ f ih =>
      intro d lvl n hn
      cases lvl with
      | zero =>
          simp only [nodesAtLevel, List.mem_singleton] at hn
          subst hn
          simp [Store.build_tree, DepartmentDetails.employees, DepartmentDetails.id]
      | succ l =>
          simp only [nodesAtLevel, Store.build_tree, DepartmentDetails.children,
            List.mem_flatMap] at hn
          obtain ⟨c, hc, hnc⟩ := hn
          obtain ⟨row, _, hcrow⟩ := List.mem_map.mp hc
          exact ih row l n (hcrow ▸ hnc)

/-- C4: get_with_details clamps depth to [0, 5]: depth 0 yields the
single requested node with an empty children list whatever its real
children are; every node exactly at the clamped depth boundary has an
empty children list; and any depth at least 5 (such as 99) produces a
result identical to depth 5. -/
theorem get_with_details_depth_clamp_spec (s : Store) (id : Nat) (inc : Bool) :
    (∀ t, s.get_with_details id 0 inc = some t → t.children = []) ∧
    (∀ depth : Int, ∀ t, s.get_with_details id depth inc = some t →
      ∀ n ∈ nodesAtLevel ((min (max depth 0) 5).toNat) t, n.children = []) ∧
    (∀ depth : Int, 5 ≤ depth → s.get_with_details id depth inc = s.get_with_details id 5 inc) ∧
    (s.get_with_details id 99 inc = s.get_with_details id 5 inc) := by
  have hbound : ∀ depth : Int, ∀ t, s.get_with_details id depth inc = some t →
      ∀ n ∈ nodesAtLevel ((min (max depth 0) 5).toNat) t, n.children = [] := by
    intro depth t ht n hn
    simp only [Store.get_with_details] at ht
    cases hd : s.getDept id with
    | none => rw [hd] at ht; simp at ht
    | some d =>
        rw [hd, Option.map_some'] at ht
        have ht2 : t = s.build_tree inc (min (max depth 0) 5).toNat d :=
          (Option.some_inj.mp ht).symm
        subst ht2
        exact build_tree_children_at_boundary s inc _ d n hn
  have hclamp : ∀ depth : Int, 5 ≤ depth →
      s.get_with_details id depth inc = s.get_with_details id 5 inc := by
    intro depth h
    have h1 : min (max depth 0) 5 = (5 : Int) := by
      rw [max_eq_left (le_trans (by norm_num) h)]
      exact min_eq_right h
    simp only [Store.get_with_details, h1]
    norm_num
  refine ⟨?_, hbound, hclamp, hclamp 99 (by norm_num)⟩
  intro t ht
  have := hbound 0 t ht t
  simp only [show ((min (max (0 : Int) 0) 5).toNat) = 0 by norm_num, nodesAtLevel,
    List.mem_singleton] at this
  exact this trivial

theorem get_with_details_depth_clamp_spec_witness :
    ((∀ t, exampleStore.get_with_details 1 0 false = some t → t.children = []) ∧
    (∀ depth : Int, ∀ t, exampleStore.get_with_details 1 depth false = some t →
      ∀ n ∈ nodesAtLevel ((min (max depth 0) 5).toNat) t, n.children = []) ∧
    (∀ depth : Int, 5 ≤ depth →
      exampleStore.get_with_details 1 depth false = exampleStore.get_with_details 1 5 false) ∧
    (exampleStore.get_with_details 1 99 false = exampleStore.get_with_details 1 5 false)) ∧
    exampleStore.get_with_details 1 0 false
      = some (.mk 1 "A" none [] []) :=
  ⟨get_with_details_depth_clamp_spec exampleStore 1 false, by rfl⟩

/-- C9: in the result of get_with_details with include_employees, every
node's employees list is sorted by ascending created_at and is, as a
multiset, exactly the employees whose department_id is that node's id. -/
theorem build_tree_employees_sorted_spec (s : Store) (id : Nat) (depth : Int) :
    ∀ t, s.get_with_details id depth true = some t →
      ∀ lvl, ∀ n ∈ nodesAtLevel lvl t,
        n.employees.Pairwise (fun a b => a.created_at ≤ b.created_at) ∧
        n.employees.Perm (s.employees.filter (fun e => e.department_id = n.id)) := by
  intro t ht lvl n hn
  simp only [Store.get_with_details] at ht
  cases hd : s.getDept id with
  | none => rw [hd] at ht; simp at ht
  | some d =>
      rw [hd, Option.map_some'] at ht
      have ht2 : t = s.build_tree true (min (max depth 0) 5).toNat d :=
        (Option.some_inj.mp ht).symm
      subst ht2
      have hemp := build_tree_employees_eq s _ d lvl n hn
      rw [hemp]
      constructor
      · have hs := @List.sorted_mergeSort Employee
          (fun a b => decide (a.created_at ≤ b.created_at))
          (by intro a b c hab hbc
              simp only [decide_eq_true_eq] at hab hbc ⊢
              exact le_trans hab hbc)
          (by intro a b
              simp only [Bool.or_eq_true, decide_eq_true_eq]
              exact Nat.le_total a.created_at b.created_at)
          (s.empsOf n.id)
        refine List.Pairwise.imp ?_ hs
        intro a b hab
        simpa using hab
      · exact (List.mergeSort_perm (s.empsOf n.id) _).trans (by rw [Store.empsOf])

theorem build_tree_employees_sorted_spec_witness :
    (DepartmentDetails.mk 4 "D" (some 2) (sortEmployees (exampleStore.empsOf 4))
        []).employees.Pairwise (fun a b => a.created_at ≤ b.created_at) ∧
    (DepartmentDetails.mk 4 "D" (some 2) (sortEmployees (exampleStore.empsOf 4))
        []).employees.Perm
      (exampleStore.employees.filter (fun e => e.department_id =
        (DepartmentDetails.mk 4 "D" (some 2) (sortEmployees (exampleStore.empsOf 4))
          []).id)) :=
  build_tree_employees_sorted_spec exampleStore 4 0
    (DepartmentDetails.mk 4 "D" (some 2) (sortEmployees (exampleStore.empsOf 4)) [])
    rfl 0
    (DepartmentDetails.mk 4 "D" (some 2) (sortEmployees (exampleStore.empsOf 4)) [])
    (by simp [nodesAtLevel])

/-- C6 (amended): create_department fails with NotFound when a non-null
parent_id names no department; it fails with Conflict when exactly one
department with the same trimmed name already exists in the same sibling
group (the null-parent group included) — with two or more same-named
siblings, a state reachable because the schema has no unique constraint,
scalar_one_or_none raises instead and the request fails with a server
error (see the counterexample); and two creations of the same name under
two different (existing) parents both succeed. -/
theorem create_department_uniqueness_spec (s : Store) :
    (∀ raw nm pid nid now, validDeptName raw = .ok nm → ¬ pid ∈ deptIds s →
        create_department s raw (some pid) nid now = .error .notFound) ∧
    (∀ raw nm pid nid now d, validDeptName raw = .ok nm →
        (pid = none ∨ ∃ q, pid = some q ∧ q ∈ deptIds s) →
        siblingRows s nm pid none = [d] →
        create_department s raw pid nid now = .error .conflict) ∧
    (∀ raw nm p q n1 t1 n2 t2, validDeptName raw = .ok nm →
        ¬ p = q →
        (p = none ∨ ∃ x, p = some x ∧ x ∈ deptIds s) →
        (q = none ∨ ∃ x, q = some x ∧ x ∈ deptIds s) →
        siblingRows s nm p none = [] →
        siblingRows s nm q none = [] →
        ∃ s2 d2 s3 d3, create_department s raw p n1 t1 = .ok (s2, d2) ∧
          create_department s2 raw q n2 t2 = .ok (s3, d3)) := by
  refine ⟨?_, ?_, ?_⟩
  · intro raw nm pid nid now hval hmiss
    have hnone : s.getDept pid = none := getDept_eq_none.mpr hmiss
    simp [create_department, hval, hnone]
  · intro raw nm pid nid now d hval hpar hone
    have hex : s.name_exists_in_parent nm pid none = .ok true := by
      unfold Store.name_exists_in_parent
      rw [hone]
    rcases hpar with hnone | ⟨q, hq, hqmem⟩
    · subst hnone
      simp [create_department, hval, createInsert, hex]
    · subst hq
      obtain ⟨d2, hgd, _, _⟩ := getDept_exists hqmem
      simp [create_department, hval, createInsert, hex, hgd]
  · intro raw nm p q n1 t1 n2 t2 hval hpq hp hq hnp hnq
    have hnpx : s.name_exists_in_parent nm p none = .ok false := by
      unfold Store.name_exists_in_parent
      rw [hnp]
    have hstep1 : create_department s raw p n1 t1 =
        .ok (⟨s.departments ++ [⟨n1, nm, p, t1⟩], s.employees⟩, ⟨n1, nm, p, t1⟩) := by
      rcases hp with hnone | ⟨x, hx, hxmem⟩
      · subst hnone
        simp [create_department, hval, createInsert, hnpx]
      · subst hx
        obtain ⟨d, hgd, _, _⟩ := getDept_exists hxmem
        simp [create_department, hval, createInsert, hnpx, hgd]
    have hndq : siblingRows ⟨s.departments ++ [⟨n1, nm, p, t1⟩], s.employees⟩ nm q none
        = [] := by
      unfold siblingRows at hnq ⊢
      dsimp only at hnq
      simp only [List.filter_append]
      rw [hnq]
      simp [hpq]
    have hnqx : Store.name_exists_in_parent
        ⟨s.departments ++ [⟨n1, nm, p, t1⟩], s.employees⟩ nm q none = .ok false := by
      unfold Store.name_exists_in_parent
      rw [hndq]
    have hstep2 : create_department ⟨s.departments ++ [⟨n1, nm, p, t1⟩], s.employees⟩ raw q n2 t2
        = .ok (⟨(s.departments ++ [⟨n1, nm, p, t1⟩]) ++ [⟨n2, nm, q, t2⟩], s.employees⟩,
            ⟨n2, nm, q, t2⟩) := by
      rcases hq with hnone | ⟨x, hx, hxmem⟩
      · subst hnone
        simp [create_department, hval, createInsert, hnqx]
      · subst hx
        have hxmem2 : x ∈ deptIds ⟨s.departments ++ [⟨n1, nm, p, t1⟩], s.employees⟩ := by
          unfold deptIds at hxmem ⊢
          simp only [List.map_append]
          exact List.mem_append_left _ hxmem
        obtain ⟨d, hgd, _, _⟩ := getDept_exists hxmem2
        simp [create_department, hval, createInsert, hnqx, hgd]
    exact ⟨_, _, _, _, hstep1, hstep2⟩

theorem create_department_uniqueness_spec_witness :
    ((validDeptName " B  " = .ok "B" ∧ ¬ 9 ∈ deptIds exampleStore) ∧
      create_department exampleStore " B  " (some 9) 7 7 = .error .notFound) ∧
    ((siblingRows exampleStore "B" (some 1) none = [⟨2, "B", some 1, 1⟩]) ∧
      create_department exampleStore " B  " (some 1) 7 7 = .error .conflict) ∧
    (∃ s2 d2 s3 d3, create_department exampleStore " B  " (some 3) 7 7 = .ok (s2, d2) ∧
      create_department s2 " B  " (some 4) 8 8 = .ok (s3, d3)) := by
  refine ⟨⟨⟨rfl, by decide⟩, ?_⟩, ⟨rfl, ?_⟩, ?_⟩
  · exact (create_department_uniqueness_spec exampleStore).1 " B  " "B" 9 7 7 rfl (by decide)
  · exact (create_department_uniqueness_spec exampleStore).2.1 " B  " "B" (some 1) 7 7
      ⟨2, "B", some 1, 1⟩ rfl (Or.inr ⟨1, rfl, by decide⟩) rfl
  · exact (create_department_uniqueness_spec exampleStore).2.2 " B  " "B" (some 3) (some 4)
      7 7 8 8 rfl (by decide) (Or.inr ⟨3, rfl, by decide⟩) (Or.inr ⟨4, rfl, by decide⟩)
      rfl rfl

/-- A store with two same-named siblings under an existing parent: a
reachable state, since the schema declares no unique constraint on
(name, parent_id) and the advisory check races (spec §5). -/
def dupStore : Store :=
  ⟨[⟨1, "A", none, 0⟩, ⟨2, "X", some 1, 1⟩, ⟨3, "X", some 1, 2⟩], []⟩

/-- C6 counterexample: with two departments named "X" under parent 1, a
department with the requested trimmed name already exists in the sibling
group and the parent exists, yet create_department does not fail with
Conflict: scalar_one_or_none raises MultipleResultsFound and the request
fails with a server error instead. -/
theorem create_department_conflict_counterexample :
    validDeptName "X" = .ok "X" ∧
    1 ∈ deptIds dupStore ∧
    (∃ d, d ∈ dupStore.departments ∧ d.name = "X" ∧ d.parent_id = some 1) ∧
    create_department dupStore "X" (some 1) 9 9 = .error .serverError ∧
    ¬ create_department dupStore "X" (some 1) 9 9 = .error .conflict := by
  refine ⟨rfl, by decide, ⟨⟨2, "X", some 1, 1⟩, by decide, rfl, rfl⟩, rfl, ?_⟩
  intro h
  have he : create_department dupStore "X" (some 1) 9 9 = Except.error HError.serverError := rfl
  rw [he] at h
  simp at h

/-- A successful updateFinish commits exactly the fetched row rewritten
with the new name and parent. -/
theorem updateFinish_ok {s : Store} {id : Nat} {dept : Department} {new_name : String}
    {new_parent_id : Option Nat} {s2 : Store} {d2 : Department}
    (hd : s.getDept id = some dept)
    (h : updateFinish s id dept new_name new_parent_id = some (.ok (s2, d2))) :
    s2 = ⟨s.departments.map (fun d =>
        if d.id = id then { d with name := new_name, parent_id := new_parent_id } else d),
      s.employees⟩ ∧
    d2 = { dept with name := new_name, parent_id := new_parent_id } := by
  have hdid : dept.id = id := (getDept_some hd).2
  have h2 : updateCommit s id dept new_name new_parent_id = some (.ok (s2, d2)) := by
    unfold updateFinish at h
    by_cases hch : ¬ new_name = dept.name ∨ ¬ new_parent_id = dept.parent_id
    · rw [if_pos hch] at h
      cases hne : s.name_exists_in_parent new_name new_parent_id (some id) with
      | error e =>
          rw [hne] at h
          simp at h
      | ok b =>
          rw [hne] at h
          cases b with
          | true => simp at h
          | false => exact h
    · rw [if_neg hch] at h
      exact h
  unfold updateCommit repo_update at h2
  simp only [hdid, hd, Option.some_inj, Except.ok.injEq, Prod.mk.injEq] at h2
  refine ⟨h2.1.symm, ?_⟩
  rw [← h2.2]
  simp [hdid]

/-- A successful update_department run reaches updateFinish with the
effective name and parent computed from the request. -/
theorem update_department_ok_elim {s : Store} {id : Nat} {req : DepartmentUpdateRequest}
    {dept : Department} (hd : s.getDept id = some dept) {r : Store × Department}
    (h : update_department s id req = some (.ok r)) :
    updateFinish s id dept (req.name.getD dept.name)
      (if req.parent_provided then req.parent_id else dept.parent_id) = some (.ok r) := by
  simp only [update_department, hd] at h
  by_cases h1 : (if req.parent_provided then req.parent_id else dept.parent_id) = some id
  · rw [if_pos h1] at h
    simp at h
  · rw [if_neg h1] at h
    cases hnp : (if req.parent_provided then req.parent_id else dept.parent_id) with
    | none =>
        rw [hnp] at h
        exact h
    | some pid =>
        rw [hnp] at h
        dsimp only at h
        cases hg : s.getDept pid with
        | none => rw [hg] at h; simp at h
        | some pd =>
            rw [hg] at h
            cases hdesc : s.is_descendant id pid with
            | none => rw [hdesc] at h; simp at h
            | some b =>
                rw [hdesc] at h
                cases b with
                | true => simp at h
                | false => exact h

/-- C7: a successful update_department changes only the supplied fields
of the targeted row: an omitted name or parent_id keeps its prior value,
id and created_at are never modified, every other department row is
untouched, and the employees table is untouched. -/
theorem update_department_frame_spec (s : Store) (id : Nat) (req : DepartmentUpdateRequest)
    (dept : Department) (hd : s.getDept id = some dept) :
    ∀ s2 d2, update_department s id req = some (.ok (s2, d2)) →
      s2.employees = s.employees ∧
      (∀ d ∈ s.departments, ¬ d.id = id → d ∈ s2.departments) ∧
      (∀ d3 ∈ s2.departments, ¬ d3.id = id → d3 ∈ s.departments) ∧
      d2.id = id ∧
      d2.created_at = dept.created_at ∧
      d2.name = (match req.name with | some nm => nm | none => dept.name) ∧
      d2.parent_id = (if req.parent_provided then req.parent_id else dept.parent_id) ∧
      d2 ∈ s2.departments := by
  intro s2 d2 h
  have hfin := update_department_ok_elim hd h
  obtain ⟨hs2, hd2⟩ := updateFinish_ok hd hfin
  subst hs2
  subst hd2
  have hdid : dept.id = id := (getDept_some hd).2
  refine ⟨rfl, ?_, ?_, hdid, rfl, ?_, rfl, ?_⟩
  · intro d hdm hne
    exact List.mem_map.mpr ⟨d, hdm, by simp [hne]⟩
  · intro d3 hd3 hne
    obtain ⟨d, hdm, hfd⟩ := List.mem_map.mp hd3
    by_cases hcase : d.id = id
    · exfalso
      apply hne
      rw [← hfd]
      simp [hcase, hdid]
    · rw [← hfd]
      simpa [hcase] using hdm
  · cases req.name <;> rfl
  · exact List.mem_map.mpr ⟨dept, (getDept_some hd).1, by simp [hdid]⟩

theorem update_department_frame_spec_witness :
    (⟨[⟨1, "A", none, 0⟩, ⟨2, "B2", some 1, 1⟩, ⟨3, "C", some 1, 2⟩, ⟨4, "D", some 2, 3⟩],
        exampleStore.employees⟩ : Store).employees = exampleStore.employees ∧
    (∀ d ∈ exampleStore.departments, ¬ d.id = 2 →
      d ∈ (⟨[⟨1, "A", none, 0⟩, ⟨2, "B2", some 1, 1⟩, ⟨3, "C", some 1, 2⟩, ⟨4, "D", some 2, 3⟩],
        exampleStore.employees⟩ : Store).departments) ∧
    (∀ d3 ∈ (⟨[⟨1, "A", none, 0⟩, ⟨2, "B2", some 1, 1⟩, ⟨3, "C", some 1, 2⟩,
        ⟨4, "D", some 2, 3⟩], exampleStore.employees⟩ : Store).departments, ¬ d3.id = 2 →
      d3 ∈ exampleStore.departments) ∧
    (⟨2, "B2", some 1, 1⟩ : Department).id = 2 ∧
    (⟨2, "B2", some 1, 1⟩ : Department).created_at = 1 ∧
    (⟨2, "B2", some 1, 1⟩ : Department).name = "B2" ∧
    (⟨2, "B2", some 1, 1⟩ : Department).parent_id = some 1 ∧
    (⟨2, "B2", some 1, 1⟩ : Department) ∈ (⟨[⟨1, "A", none, 0⟩, ⟨2, "B2", some 1, 1⟩,
        ⟨3, "C", some 1, 2⟩, ⟨4, "D", some 2, 3⟩], exampleStore.employees⟩ : Store).departments :=
  update_department_frame_spec exampleStore 2 ⟨some "B2", false, none⟩ ⟨2, "B", some 1, 1⟩ rfl
    ⟨[⟨1, "A", none, 0⟩, ⟨2, "B2", some 1, 1⟩, ⟨3, "C", some 1, 2⟩, ⟨4, "D", some 2, 3⟩],
      exampleStore.employees⟩
    ⟨2, "B2", some 1, 1⟩ rfl

/-- C5: for a forest-shaped store and an existing department id,
update_department rejects a self-parent request with Conflict, rejects a
request whose new parent lies in the collected subtree of id (a
descendant) with Conflict, succeeds for any existing non-self
non-descendant parent when no sibling-name collision exists, and any
successful run with a supplied parent had a parent that was neither id
itself nor a member of id's subtree, so no self-loop or cycle is ever
committed. -/
theorem update_department_cycle_guard_spec (s : Store) (id : Nat) (hf : Forest s)
    (dept : Department) (hd : s.getDept id = some dept) :
    (∀ req : DepartmentUpdateRequest, req.parent_provided = true →
        req.parent_id = some id →
        update_department s id req = some (.error .conflict)) ∧
    (∀ (req : DepartmentUpdateRequest) c out, req.parent_provided = true →
        req.parent_id = some c → ¬ c = id →
        s.collect_subtree_ids id = some out → c ∈ out →
        update_department s id req = some (.error .conflict)) ∧
    (∀ (req : DepartmentUpdateRequest) t out, req.parent_provided = true →
        req.parent_id = some t → ¬ t = id →
        t ∈ deptIds s → s.collect_subtree_ids id = some out → ¬ t ∈ out →
        s.name_exists_in_parent (req.name.getD dept.name) (some t) (some id) = .ok false →
        ∃ s2 d2, update_department s id req = some (.ok (s2, d2))) ∧
    (∀ (req : DepartmentUpdateRequest) s2 d2,
        update_department s id req = some (.ok (s2, d2)) → req.parent_provided = true →
        ∀ pid, req.parent_id = some pid →
        ¬ pid = id ∧ (∀ out, s.collect_subtree_ids id = some out → ¬ pid ∈ out)) := by
  obtain ⟨out0, tail0, hout0, hhead0, hnd0, hiff0, horig0⟩ := @collect_main s id hf
  have hpart1 : ∀ req : DepartmentUpdateRequest, req.parent_provided = true →
      req.parent_id = some id → update_department s id req = some (.error .conflict) := by
    intro req h1 h2
    simp only [update_department, hd, h1, if_true, h2]
  have hdesc_true : ∀ c, c ∈ out0 → s.is_descendant id c = some true := by
    intro c hc
    rw [Store.is_descendant, hout0, Option.map_some']
    simp [hc]
  have hdesc_false : ∀ c, ¬ c ∈ out0 → s.is_descendant id c = some false := by
    intro c hc
    rw [Store.is_descendant, hout0, Option.map_some']
    simp [hc]
  have hpart2 : ∀ (req : DepartmentUpdateRequest) c, req.parent_provided = true →
      req.parent_id = some c → ¬ c = id → c ∈ out0 →
      update_department s id req = some (.error .conflict) := by
    intro req c h1 h2 hne hmem
    have hcid : c ∈ deptIds s := by
      rcases horig0 c hmem with h | h
      · exact absurd h hne
      · exact h
    obtain ⟨pd, hgpd, _, _⟩ := getDept_exists hcid
    simp only [update_department, hd, h1, if_true, h2]
    rw [if_neg (by simpa using hne)]
    simp only [hgpd, hdesc_true c hmem]
  have hpart3 : ∀ (req : DepartmentUpdateRequest) t, req.parent_provided = true →
      req.parent_id = some t → ¬ t = id → t ∈ deptIds s → ¬ t ∈ out0 →
      s.name_exists_in_parent (req.name.getD dept.name) (some t) (some id) = .ok false →
      ∃ s2 d2, update_department s id req = some (.ok (s2, d2)) := by
    intro req t h1 h2 hne htid hmem hname
    obtain ⟨pd, hgpd, _, _⟩ := getDept_exists htid
    have hdid : dept.id = id := (getDept_some hd).2
    refine ⟨⟨s.departments.map (fun d =>
        if d.id = id then { d with name := req.name.getD dept.name, parent_id := some t }
        else d), s.employees⟩,
      { dept with name := req.name.getD dept.name, parent_id := some t }, ?_⟩
    simp only [update_department, hd, h1, if_true, h2]
    rw [if_neg (by simpa using hne)]
    simp only [hgpd, hdesc_false t hmem]
    unfold updateFinish
    by_cases hch : ¬ req.name.getD dept.name = dept.name ∨ ¬ (some t) = dept.parent_id
    · rw [if_pos hch, hname]
      dsimp only
      unfold updateCommit repo_update
      simp only [hdid, hd]
    · rw [if_neg hch]
      unfold updateCommit repo_update
      simp only [hdid, hd]
  have hpart4 : ∀ (req : DepartmentUpdateRequest) s2 d2,
      update_department s id req = some (.ok (s2, d2)) → req.parent_provided = true →
      ∀ pid, req.parent_id = some pid →
      ¬ pid = id ∧ (∀ out, s.collect_subtree_ids id = some out → ¬ pid ∈ out) := by
    intro req s2 d2 h h1 pid h2
    constructor
    · intro hpe
      have hc := hpart1 req h1 (by rw [h2, hpe])
      rw [hc] at h
      simp at h
    · intro out hcol hmem
      have hoe : out = out0 := by
        rw [hout0] at hcol
        exact (Option.some_inj.mp hcol).symm
      by_cases hpe : pid = id
      · have hc := hpart1 req h1 (by rw [h2, hpe])
        rw [hc] at h
        simp at h
      · have hc := hpart2 req pid h1 h2 hpe (hoe ▸ hmem)
        rw [hc] at h
        simp at h
  refine ⟨hpart1, ?_, ?_, hpart4⟩
  · intro req c out h1 h2 hne hcol hmem
    have hoe : out = out0 := by
      rw [hout0] at hcol
      exact (Option.some_inj.mp hcol).symm
    exact hpart2 req c h1 h2 hne (hoe ▸ hmem)
  · intro req t out h1 h2 hne htid hcol hmem hname
    have hoe : out = out0 := by
      rw [hout0] at hcol
      exact (Option.some_inj.mp hcol).symm
    exact hpart3 req t h1 h2 hne htid (hoe ▸ hmem) hname

theorem update_department_cycle_guard_spec_witness :
    update_department exampleStore 2 ⟨none, true, some 2⟩ = some (.error .conflict) ∧
    update_department exampleStore 2 ⟨none, true, some 4⟩ = some (.error .conflict) ∧
    (∃ s2 d2, update_department exampleStore 2 ⟨none, true, some 3⟩ = some (.ok (s2, d2))) := by
  have hmain := update_department_cycle_guard_spec exampleStore 2
    ⟨by decide, fun n => n, by decide⟩ ⟨2, "B", some 1, 1⟩ rfl
  refine ⟨hmain.1 ⟨none, true, some 2⟩ rfl rfl, ?_, ?_⟩
  · exact hmain.2.1 ⟨none, true, some 4⟩ 4 [2, 4] rfl rfl (by decide) rfl (by decide)
  · exact hmain.2.2.1 ⟨none, true, some 3⟩ 3 [2, 4] rfl rfl (by decide) (by decide) rfl
      (by decide) rfl
